import Mathlib

/-!
Shallow embedding of the reqviem-backend session hub (the final revision in
`src/unnamed/part_001`, whose token handlers coincide with `src/server.js`):
the token store with its four mutation handlers, the voice roster handlers,
the negotiation lock (`requestNegotiation` / `releaseNegotiation`) and the
socket handlers wired to it.  JavaScript objects keyed by socket id become
association lists, `io.emit` / `io.to(x).emit` / `saveTokens` become explicit
actions collected in order, and string-or-undefined JS values become
`Option String` with `jsFalsy` standing for JS falsiness.
-/

namespace Reqviem

/-- JS falsiness of a string-or-undefined value: `undefined`, `null` and the
empty string are falsy. -/
def jsFalsy : Option String → Bool
  | none => true
  | some s => s == ""

/-- One token on the shared canvas: `id` and `src` may be absent (the hub
validates them only at `addToken` ingress); the open bag of presentation
attributes is opaque to the hub and modelled by a single `Nat`. -/
structure Token where
  id : Option String
  src : Option String
  attrs : Nat
deriving DecidableEq

/-- One voice participant as stored in `participants`: `{ id, nick, speaking }`. -/
structure Participant where
  id : String
  nick : String
  speaking : Bool
deriving DecidableEq

/-- The two negotiation-lock globals: `negotiationOwner` and `negotiationQueue`. -/
structure NegLock where
  owner : Option String
  queue : List String
deriving DecidableEq

/-- Result object of `requestNegotiation`: `position` is present only in the
queued reply. -/
structure NegResult where
  granted : Bool
  position : Option Nat
deriving DecidableEq

/-- Messages the hub emits over sockets. -/
inductive Msg where
  | addToken (t : Token)
  | updateToken (t : Token)
  | reorderMsg (ts : List Token)
  | deleteToken (id : Option String)
  | voiceSignal (fromId : String) (data : Nat)
  | voiceSpeaking (id : String) (speaking : Bool)
  | voiceParticipants (ps : List Participant)
  | negotiateResponse (granted : Bool) (position : Nat)
  | negotiateGrant (grantedTo : String)
  | negotiateReleased (releasedBy : String) (newOwner : Option String)
deriving DecidableEq

/-- Observable side effects of one handler invocation, in program order:
a synchronous `saveTokens` write, a broadcast `io.emit`, or a targeted
`io.to(target).emit` / `socket.emit`. -/
inductive Action where
  | persist (ts : List Token)
  | emitAll (m : Msg)
  | emitTo (target : String) (m : Msg)
deriving DecidableEq

/-- All mutable hub state: `tokens`, the `participants` object (association
list keyed by socket id), the negotiation-lock globals, and the set of live
socket ids (`io.sockets.sockets`). -/
structure HubState where
  tokens : List Token
  participants : List (String × Participant)
  lock : NegLock
  connections : List String
deriving DecidableEq

/-- `requestNegotiation(socketId)` from part_001:
if no owner, take ownership and grant; if already owner, re-grant;
otherwise push onto the queue unless already queued and answer with the
1-based `indexOf` position. -/
def requestNegotiation (st : NegLock) (socketId : String) : NegResult × NegLock :=
  if st.owner = none then
    (⟨true, none⟩, { st with owner := some socketId })
  else if st.owner = some socketId then
    (⟨true, none⟩, st)
  else
    let q := if socketId ∈ st.queue then st.queue else st.queue ++ [socketId]
    (⟨false, some (q.indexOf socketId + 1)⟩, { st with queue := q })

/-- `releaseNegotiation(socketId)` from part_001: if `socketId` owns the lock,
clear ownership, shift the queue and promote its head (emitting a grant to it
when that socket is live); otherwise splice `socketId` out of the queue.
Returns the JS boolean return value, the new lock state and the emitted
actions. -/
def releaseNegotiation (live : List String) (st : NegLock) (socketId : String) :
    Bool × NegLock × List Action :=
  if st.owner = some socketId then
    match st.queue with
    | [] => (true, ⟨none, []⟩, [])
    | next :: rest =>
        (true, ⟨some next, rest⟩,
          if next ∈ live then [.emitTo next (.negotiateGrant next)] else [])
  else
    (false, { st with queue := st.queue.erase socketId }, [])

/-- `addToken` handler: reject a missing payload or a token with falsy
`id`/`src`; reject a duplicate `id`; otherwise push, save and broadcast. -/
def addTokenHandler (payload : Option Token) (s : HubState) : HubState × List Action :=
  match payload with
  | none => (s, [])
  | some token =>
      if jsFalsy token.id || jsFalsy token.src then (s, [])
      else if ∃ t ∈ s.tokens, t.id = token.id then (s, [])
      else
        let ts := s.tokens ++ [token]
        ({ s with tokens := ts }, [.persist ts, .emitAll (.addToken token)])

/-- `updateToken` handler: map over the store replacing entries whose `id`
matches, then save and broadcast unconditionally. -/
def updateTokenHandler (token : Token) (s : HubState) : HubState × List Action :=
  let ts := s.tokens.map fun t => if t.id = token.id then token else t
  ({ s with tokens := ts }, [.persist ts, .emitAll (.updateToken token)])

/-- Payload of the `reorder` event: either a JS array of tokens or any
non-array value (which `Array.isArray` rejects). -/
inductive ReorderPayload where
  | arr (ts : List Token)
  | notArray
deriving DecidableEq

/-- `reorder` handler: wholesale replace when the payload is an array (no
per-element validation), keep the store otherwise; save and broadcast the
resulting store unconditionally. -/
def reorderHandler (payload : ReorderPayload) (s : HubState) : HubState × List Action :=
  let ts := match payload with
    | .arr newTokens => newTokens
    | .notArray => s.tokens
  ({ s with tokens := ts }, [.persist ts, .emitAll (.reorderMsg ts)])

/-- `deleteToken` handler: filter out entries whose `id` matches, save and
broadcast unconditionally. -/
def deleteTokenHandler (id : Option String) (s : HubState) : HubState × List Action :=
  let ts := s.tokens.filter fun t => t.id ≠ id
  ({ s with tokens := ts }, [.persist ts, .emitAll (.deleteToken id)])

/-- `voice-signal` handler: forward `{ from: socket.id, data }` to the target
connection only when the target id is truthy and live; otherwise do nothing. -/
def voiceSignalHandler (sender : String) (target : Option String) (data : Nat)
    (s : HubState) : HubState × List Action :=
  match target with
  | none => (s, [])
  | some tg =>
      if tg ≠ "" ∧ tg ∈ s.connections then
        (s, [.emitTo tg (.voiceSignal sender data)])
      else (s, [])

/-- `voice-speaking` handler: keyed on the payload `id`, not the sender —
if `id` is truthy and present in `participants`, set that participant's
`speaking` flag and broadcast the delta to everyone. -/
def voiceSpeakingHandler (sender : String) (id : Option String) (speaking : Bool)
    (s : HubState) : HubState × List Action :=
  match id with
  | none => (s, [])
  | some pid =>
      if pid = "" then (s, [])
      else if (s.participants.lookup pid).isSome then
        let ps := s.participants.map fun kv =>
          if kv.1 = pid then (kv.1, { kv.2 with speaking := speaking }) else kv
        ({ s with participants := ps }, [.emitAll (.voiceSpeaking pid speaking)])
      else (s, [])

/-- `disconnect` handler: delete the roster entry, run `releaseNegotiation`
(whose grant emission happens first), then broadcast the new roster. -/
def disconnectHandler (sender : String) (s : HubState) : HubState × List Action :=
  let ps := s.participants.filter fun kv => kv.1 ≠ sender
  let r := releaseNegotiation s.connections s.lock sender
  ({ s with participants := ps, lock := r.2.1 },
    r.2.2 ++ [.emitAll (.voiceParticipants (ps.map Prod.snd))])

/-- `voice-leave` handler: identical body to the `disconnect` handler. -/
def voiceLeaveHandler (sender : String) (s : HubState) : HubState × List Action :=
  let ps := s.participants.filter fun kv => kv.1 ≠ sender
  let r := releaseNegotiation s.connections s.lock sender
  ({ s with participants := ps, lock := r.2.1 },
    r.2.2 ++ [.emitAll (.voiceParticipants (ps.map Prod.snd))])

/-- `voice-negotiate-request` handler: run `requestNegotiation`, reply to the
requester only with `{ granted, position: res.position || 0 }`, and send the
requester a grant event when granted. -/
def voiceNegotiateRequestHandler (sender : String) (s : HubState) :
    HubState × List Action :=
  let r := requestNegotiation s.lock sender
  let reply := Action.emitTo sender (.negotiateResponse r.1.granted (r.1.position.getD 0))
  ({ s with lock := r.2 },
    if r.1.granted then [reply, .emitTo sender (.negotiateGrant sender)] else [reply])

/-- `voice-negotiate-release` handler: run `releaseNegotiation` (grant to the
promoted waiter emitted inside it), then broadcast the released notice with
the new owner. -/
def voiceNegotiateReleaseHandler (sender : String) (s : HubState) :
    HubState × List Action :=
  let r := releaseNegotiation s.connections s.lock sender
  ({ s with lock := r.2.1 },
    r.2.2 ++ [.emitAll (.negotiateReleased sender r.2.1.owner)])

/-- One negotiation-lock operation, for reachability statements. -/
inductive NegOp where
  | req (p : String)
  | rel (p : String)

/-- State change of one negotiation-lock operation (the emitted actions do
not feed back into the lock state). -/
def negStep (live : List String) (s : NegLock) : NegOp → NegLock
  | .req p => (requestNegotiation s p).2
  | .rel p => (releaseNegotiation live s p).2.1

/-- Run a sequence of lock operations from a state. -/
def negRun (live : List String) (ops : List NegOp) (s : NegLock) : NegLock :=
  ops.foldl (negStep live) s

/-- The lock state at process start: no owner, empty queue. -/
def initLock : NegLock := ⟨none, []⟩

/-- The negotiation-lock invariant of the spec: no duplicate waiters, the
owner is never also queued, and an ownerless lock has an empty queue. -/
def NegLock.Inv (s : NegLock) : Prop :=
  s.queue.Nodup ∧ (∀ o, s.owner = some o → o ∉ s.queue) ∧
    (s.owner = none → s.queue = [])

/-- Spec-side predicate (from §3 of the spec): a valid token carries both a
truthy `id` and a truthy `src`. -/
def specValidToken (t : Token) : Prop :=
  jsFalsy t.id = false ∧ jsFalsy t.src = false

instance : DecidablePred specValidToken := fun t => by
  unfold specValidToken; infer_instance

/-- Spec-side predicate: a valid sequence of tokens is one whose members are
all valid tokens. -/
def specValidTokenSeq (ts : List Token) : Prop :=
  ∀ t ∈ ts, specValidToken t

instance : DecidablePred specValidTokenSeq := fun ts => by
  unfold specValidTokenSeq; infer_instance

/-- The Token Store invariant of the spec: every stored token has `id` and
`src`, and ids are unique within the store. -/
def storeInvariant (ts : List Token) : Prop :=
  specValidTokenSeq ts ∧ (ts.map Token.id).Nodup

instance : DecidablePred storeInvariant := fun ts => by
  unfold storeInvariant; infer_instance

/-- Messages that announce a token-store mutation. -/
def isMutationMsg : Msg → Bool
  | .addToken _ => true
  | .updateToken _ => true
  | .reorderMsg _ => true
  | .deleteToken _ => true
  | _ => false

/-! ## Helper lemmas -/

theorem requestNegotiation_no_owner (st : NegLock) (p : String) (h : st.owner = none) :
    requestNegotiation st p = (⟨true, none⟩, { st with owner := some p }) := by
  simp [requestNegotiation, h]

theorem requestNegotiation_self (st : NegLock) (p : String) (h : st.owner = some p) :
    requestNegotiation st p = (⟨true, none⟩, st) := by
  simp [requestNegotiation, h]

theorem requestNegotiation_already_queued (st : NegLock) (p : String)
    (h1 : st.owner ≠ none) (h2 : st.owner ≠ some p) (h3 : p ∈ st.queue) :
    requestNegotiation st p = (⟨false, some (st.queue.indexOf p + 1)⟩, st) := by
  simp [requestNegotiation, h1, h2, h3]

theorem requestNegotiation_enqueue (st : NegLock) (p : String)
    (h1 : st.owner ≠ none) (h2 : st.owner ≠ some p) (h3 : p ∉ st.queue) :
    requestNegotiation st p =
      (⟨false, some (st.queue.length + 1)⟩, { st with queue := st.queue ++ [p] }) := by
  have hidx : (st.queue ++ [p]).indexOf p = st.queue.length := by
    rw [List.indexOf_append_of_not_mem h3]
    simp
  simp [requestNegotiation, h1, h2, h3, hidx]

theorem releaseNegotiation_owner (live : List String) (st : NegLock) (p : String)
    (h : st.owner = some p) :
    releaseNegotiation live st p =
      (true, ⟨st.queue.head?, st.queue.tail⟩,
        match st.queue.head? with
        | none => []
        | some next =>
            if next ∈ live then [.emitTo next (.negotiateGrant next)] else []) := by
  unfold releaseNegotiation
  rw [if_pos h]
  cases st.queue <;> rfl

theorem releaseNegotiation_nonowner (live : List String) (st : NegLock) (p : String)
    (h : st.owner ≠ some p) :
    releaseNegotiation live st p =
      (false, { st with queue := st.queue.erase p }, []) := by
  unfold releaseNegotiation
  rw [if_neg h]

theorem negStep_inv (live : List String) (s : NegLock) (op : NegOp)
    (h : s.Inv) : (negStep live s op).Inv := by
  obtain ⟨hnd, hown, hempty⟩ := h
  cases op with
  | req p =>
      by_cases h1 : s.owner = none
      · rw [negStep, requestNegotiation_no_owner s p h1]
        have hq : s.queue = [] := hempty h1
        exact ⟨by simp [hq], by simp [hq], by simp [hq]⟩
      · by_cases h2 : s.owner = some p
        · rw [negStep, requestNegotiation_self s p h2]
          exact ⟨hnd, hown, hempty⟩
        · by_cases h3 : p ∈ s.queue
          · rw [negStep, requestNegotiation_already_queued s p h1 h2 h3]
            exact ⟨hnd, hown, hempty⟩
          · rw [negStep, requestNegotiation_enqueue s p h1 h2 h3]
            refine ⟨?_, ?_, ?_⟩
            · simpa [List.nodup_append] using ⟨hnd, fun hp => h3 hp⟩
            · intro o ho
              simp only [List.mem_append, List.mem_singleton]
              rintro (hin | rfl)
              · exact hown o ho hin
              · exact h2 ho
            · intro hnone; exact absurd hnone h1
  | rel p =>
      by_cases h1 : s.owner = some p
      · rw [negStep, releaseNegotiation_owner live s p h1]
        cases hq : s.queue with
        | nil => exact ⟨by simp, by simp, by simp⟩
        | cons next rest =>
            have hnd' : (next :: rest).Nodup := hq ▸ hnd
            refine ⟨hnd'.of_cons, ?_, ?_⟩
            · intro o ho
              simp only [hq, List.head?_cons, Option.some.injEq] at ho
              subst ho
              exact (List.nodup_cons.mp hnd').1
            · intro hnone
              simp [hq] at hnone
      · rw [negStep, releaseNegotiation_nonowner live s p h1]
        refine ⟨hnd.erase p, ?_, ?_⟩
        · intro o ho hin
          exact hown o ho (List.mem_of_mem_erase hin)
        · intro hnone
          rw [hempty hnone, List.erase_nil]

theorem negRun_inv (live : List String) (ops : List NegOp) (s : NegLock)
    (h : s.Inv) : (negRun live ops s).Inv := by
  induction ops generalizing s with
  | nil => exact h
  | cons op rest ih => exact ih _ (negStep_inv live s op h)

theorem persist_mem_of_eq_append {ts : List Token} {m0 m : Msg} {pre suf : List Action}
    (h : [Action.persist ts, Action.emitAll m0] = pre ++ Action.emitAll m :: suf) :
    Action.persist ts ∈ pre := by
  cases pre with
  | nil => simp at h
  | cons a pre1 =>
      cases pre1 with
      | nil =>
          simp only [List.cons_append, List.nil_append, List.cons.injEq] at h
          rw [← h.1]
          exact List.mem_singleton_self _
      | cons b pre2 =>
          have hlen := congrArg List.length h
          simp [List.length_append] at hlen

theorem addTokenHandler_cases (payload : Option Token) (s : HubState) :
    addTokenHandler payload s = (s, []) ∨
    ∃ t : Token, payload = some t ∧
      jsFalsy t.id = false ∧ jsFalsy t.src = false ∧
      (∀ u ∈ s.tokens, u.id ≠ t.id) ∧
      addTokenHandler payload s =
        ({ s with tokens := s.tokens ++ [t] },
          [.persist (s.tokens ++ [t]), .emitAll (.addToken t)]) := by
  cases payload with
  | none => exact Or.inl rfl
  | some t =>
      by_cases h1 : (jsFalsy t.id || jsFalsy t.src) = true
      · left; simp [addTokenHandler, h1]
      · by_cases h2 : ∃ u ∈ s.tokens, u.id = t.id
        · left; simp [addTokenHandler, h1, h2]
        · right
          have hb := Bool.or_eq_false_iff.mp (Bool.eq_false_iff.mpr h1)
          refine ⟨t, rfl, hb.1, hb.2, ?_, by simp [addTokenHandler, h1, h2]⟩
          intro u hu he
          exact h2 ⟨u, hu, he⟩

theorem map_update_of_no_match (t : Token) (l : List Token)
    (h : ∀ u ∈ l, u.id ≠ t.id) :
    (l.map fun u => if u.id = t.id then t else u) = l := by
  induction l with
  | nil => rfl
  | cons a as ih =>
      simp only [List.map_cons]
      rw [if_neg (h a (List.mem_cons_self a as)),
        ih fun u hu => h u (List.mem_cons_of_mem a hu)]

theorem voiceSpeakingHandler_member (sender : String) (pid : String) (sp : Bool)
    (st : HubState) (hne : pid ≠ "") (hsome : (st.participants.lookup pid).isSome) :
    voiceSpeakingHandler sender (some pid) sp st =
      ({ st with participants := st.participants.map fun kv =>
          if kv.1 = pid then (kv.1, { kv.2 with speaking := sp }) else kv },
        [.emitAll (.voiceSpeaking pid sp)]) := by
  simp [voiceSpeakingHandler, hne, hsome]

theorem lookup_map_speaking (pid : String) (sp : Bool) (l : List (String × Participant)) :
    (l.map fun kv =>
        if kv.1 = pid then (kv.1, { kv.2 with speaking := sp }) else kv).lookup pid
      = (l.lookup pid).map fun q => { q with speaking := sp } := by
  induction l with
  | nil => rfl
  | cons kv rest ih =>
      obtain ⟨k, v⟩ := kv
      simp only [List.map_cons]
      by_cases h : k = pid
      · subst h
        rw [if_pos rfl, List.lookup_cons, List.lookup_cons]
        simp
      · rw [if_neg h, List.lookup_cons, List.lookup_cons]
        have hbeq : (pid == k) = false := beq_eq_false_iff_ne.mpr (Ne.symm h)
        simp [hbeq, ih]

/-! ## Claim theorems -/

/-- C1: for every participant `p`, `requestNegotiation` grants immediately and
sets the owner when there is no owner; re-grants without changing owner or
waiters when `p` already owns the lock; and otherwise appends `p` to the
waiters only if not already present, replying `granted = false` with `p`'s
current 1-based queue position. -/
theorem requestNegotiation_spec (st : NegLock) (p : String) :
    (st.owner = none →
        requestNegotiation st p = (⟨true, none⟩, { st with owner := some p })) ∧
    (st.owner = some p → requestNegotiation st p = (⟨true, none⟩, st)) ∧
    (∀ o, st.owner = some o → o ≠ p →
        (requestNegotiation st p).2.owner = st.owner ∧
        (p ∈ st.queue → (requestNegotiation st p).2.queue = st.queue) ∧
        (p ∉ st.queue → (requestNegotiation st p).2.queue = st.queue ++ [p]) ∧
        (requestNegotiation st p).1.granted = false ∧
        p ∈ (requestNegotiation st p).2.queue ∧
        (requestNegotiation st p).1.position =
          some ((requestNegotiation st p).2.queue.indexOf p + 1) ∧
        (p ∉ st.queue →
          (requestNegotiation st p).1.position = some (st.queue.length + 1))) := by
  refine ⟨fun h => requestNegotiation_no_owner st p h,
          fun h => requestNegotiation_self st p h, ?_⟩
  intro o ho hop
  have h1 : st.owner ≠ none := by rw [ho]; exact Option.some_ne_none o
  have h2 : st.owner ≠ some p := by rw [ho]; simpa using hop
  by_cases h3 : p ∈ st.queue
  · rw [requestNegotiation_already_queued st p h1 h2 h3]
    refine ⟨rfl, fun _ => rfl, fun hn => absurd h3 hn, rfl, h3, rfl,
            fun hn => absurd h3 hn⟩
  · rw [requestNegotiation_enqueue st p h1 h2 h3]
    have hidx : (st.queue ++ [p]).indexOf p = st.queue.length := by
      rw [List.indexOf_append_of_not_mem h3]; simp
    refine ⟨rfl, fun hm => absurd hm h3, fun _ => rfl, rfl, by simp, ?_, fun _ => rfl⟩
    simp [hidx]

/-- C1 witness: a request by `Y` while `X` owns a lock with an empty queue is
denied, enqueues `Y`, and reports position 1. -/
theorem requestNegotiation_spec_witness :
    (requestNegotiation ⟨some "X", []⟩ "Y").2.owner = some "X" ∧
    (requestNegotiation ⟨some "X", []⟩ "Y").2.queue = [] ++ ["Y"] ∧
    (requestNegotiation ⟨some "X", []⟩ "Y").1.granted = false ∧
    (requestNegotiation ⟨some "X", []⟩ "Y").1.position = some 1 := by
  have h := (requestNegotiation_spec ⟨some "X", []⟩ "Y").2.2 "X" rfl (by decide)
  exact ⟨h.1, h.2.2.1 (by decide), h.2.2.2.1, h.2.2.2.2.2.2 (by decide)⟩

/-- C2: `releaseNegotiation` by the owner clears ownership and promotes the
head of the queue, emitting a grant to the promoted participant when live; by
a mere waiter it only removes that waiter; by anyone else it changes nothing.
The FIFO scenario: A, B, C request in order on a free lock — A is granted,
B and C get positions 1 and 2, and after A releases, B owns the lock, B is
granted and C's position becomes 1. -/
theorem releaseNegotiation_fifo_spec (live : List String) (st : NegLock) (p : String) :
    (st.owner = some p →
        (releaseNegotiation live st p).1 = true ∧
        (releaseNegotiation live st p).2.1.owner = st.queue.head? ∧
        (releaseNegotiation live st p).2.1.queue = st.queue.tail ∧
        (∀ next, st.queue.head? = some next → next ∈ live →
            (releaseNegotiation live st p).2.2 =
              [.emitTo next (.negotiateGrant next)])) ∧
    (st.owner ≠ some p →
        (releaseNegotiation live st p).1 = false ∧
        (releaseNegotiation live st p).2.1.owner = st.owner ∧
        (releaseNegotiation live st p).2.1.queue = st.queue.erase p ∧
        (releaseNegotiation live st p).2.2 = []) ∧
    (st.owner ≠ some p → p ∉ st.queue →
        (releaseNegotiation live st p).2.1 = st) ∧
    (let rA := requestNegotiation initLock "A"
     let rB := requestNegotiation rA.2 "B"
     let rC := requestNegotiation rB.2 "C"
     let rel := releaseNegotiation ["A", "B", "C"] rC.2 "A"
     rA.1.granted = true ∧ rA.2.owner = some "A" ∧
     rB.1 = ⟨false, some 1⟩ ∧ rC.1 = ⟨false, some 2⟩ ∧
     rel.2.1 = ⟨some "B", ["C"]⟩ ∧
     rel.2.2 = [.emitTo "B" (.negotiateGrant "B")] ∧
     (requestNegotiation rel.2.1 "C").1 = ⟨false, some 1⟩) := by
  refine ⟨?_, ?_, ?_, by decide⟩
  · intro h
    rw [releaseNegotiation_owner live st p h]
    refine ⟨rfl, rfl, rfl, ?_⟩
    intro next hnext hlive
    rw [hnext]
    simp [hlive]
  · intro h
    rw [releaseNegotiation_nonowner live st p h]
    exact ⟨rfl, rfl, rfl, rfl⟩
  · intro h hq
    rw [releaseNegotiation_nonowner live st p h]
    simp [List.erase_of_not_mem hq]

/-- C2 witness: the owner `A` of a lock with waiters `[B, C]` releases; the
call reports `wasOwner`, promotes `B`, keeps `C` waiting, and emits a grant
to the live `B`. -/
theorem releaseNegotiation_fifo_spec_witness :
    (releaseNegotiation ["B"] ⟨some "A", ["B", "C"]⟩ "A").1 = true ∧
    (releaseNegotiation ["B"] ⟨some "A", ["B", "C"]⟩ "A").2.1.owner = some "B" ∧
    (releaseNegotiation ["B"] ⟨some "A", ["B", "C"]⟩ "A").2.1.queue = ["C"] ∧
    (releaseNegotiation ["B"] ⟨some "A", ["B", "C"]⟩ "A").2.2 =
      [.emitTo "B" (.negotiateGrant "B")] := by
  have h := (releaseNegotiation_fifo_spec ["B"] ⟨some "A", ["B", "C"]⟩ "A").1 rfl
  exact ⟨h.1, h.2.1, h.2.2.1, h.2.2.2 "B" rfl (by decide)⟩

/-- C3: the `disconnect` and `voice-leave` handlers change the negotiation
lock exactly as `releaseNegotiation` does for the leaving participant; in
particular a disconnecting owner hands ownership to the head of the waiters
queue within the same step, and a non-owner's disconnect never changes the
owner. -/
theorem disconnect_releases_lock (p : String) (s : HubState) :
    ((disconnectHandler p s).1.lock = (releaseNegotiation s.connections s.lock p).2.1 ∧
     (voiceLeaveHandler p s).1.lock = (releaseNegotiation s.connections s.lock p).2.1) ∧
    (s.lock.owner = some p →
        (disconnectHandler p s).1.lock.owner = s.lock.queue.head? ∧
        (voiceLeaveHandler p s).1.lock.owner = s.lock.queue.head?) ∧
    (s.lock.owner ≠ some p →
        (disconnectHandler p s).1.lock.owner = s.lock.owner ∧
        (disconnectHandler p s).1.lock.queue = s.lock.queue.erase p ∧
        (voiceLeaveHandler p s).1.lock.owner = s.lock.owner) := by
  refine ⟨⟨rfl, rfl⟩, ?_, ?_⟩
  · intro h
    have hrel := releaseNegotiation_owner s.connections s.lock p h
    constructor
    · show (releaseNegotiation s.connections s.lock p).2.1.owner = s.lock.queue.head?
      rw [hrel]
    · show (releaseNegotiation s.connections s.lock p).2.1.owner = s.lock.queue.head?
      rw [hrel]
  · intro h
    have hrel := releaseNegotiation_nonowner s.connections s.lock p h
    refine ⟨?_, ?_, ?_⟩
    · show (releaseNegotiation s.connections s.lock p).2.1.owner = s.lock.owner
      rw [hrel]
    · show (releaseNegotiation s.connections s.lock p).2.1.queue = s.lock.queue.erase p
      rw [hrel]
    · show (releaseNegotiation s.connections s.lock p).2.1.owner = s.lock.owner
      rw [hrel]

/-- C3 witness: owner `A` disconnects from a hub whose lock queue is `[B]`;
the lock promotes `B` in the same step, for both disconnect and voice-leave. -/
theorem disconnect_releases_lock_witness :
    (disconnectHandler "A" ⟨[], [], ⟨some "A", ["B"]⟩, ["B"]⟩).1.lock.owner = some "B" ∧
    (voiceLeaveHandler "A" ⟨[], [], ⟨some "A", ["B"]⟩, ["B"]⟩).1.lock.owner = some "B" := by
  have h := (disconnect_releases_lock "A" ⟨[], [], ⟨some "A", ["B"]⟩, ["B"]⟩).2.1 rfl
  exact ⟨h.1, h.2⟩

/-- C4: in every lock state reachable from the initial state by any sequence
of request and release operations, the waiters queue has no duplicates, the
owner is never also a waiter (so each id is in at most one of owner/waiters),
and an ownerless lock has an empty queue. -/
theorem negotiation_lock_reachable_invariant (live : List String) (ops : List NegOp) :
    (negRun live ops initLock).Inv :=
  negRun_inv live ops initLock
    ⟨List.nodup_nil, fun o ho => by simp [initLock] at ho, fun _ => rfl⟩

/-- C5: `addToken` rejects a token with falsy `id` or `src`, and a token whose
`id` is already stored, leaving the store unchanged with no persist and no
broadcast; a valid fresh token is appended at the end, persisted and
broadcast. -/
theorem addToken_spec (t : Token) (s : HubState) :
    (jsFalsy t.id = true ∨ jsFalsy t.src = true →
        addTokenHandler (some t) s = (s, [])) ∧
    ((∃ u ∈ s.tokens, u.id = t.id) → addTokenHandler (some t) s = (s, [])) ∧
    (jsFalsy t.id = false → jsFalsy t.src = false →
        (∀ u ∈ s.tokens, u.id ≠ t.id) →
        (addTokenHandler (some t) s).1.tokens = s.tokens ++ [t] ∧
        (addTokenHandler (some t) s).2 =
          [.persist (s.tokens ++ [t]), .emitAll (.addToken t)]) := by
  refine ⟨?_, ?_, ?_⟩
  · intro h
    have hb : (jsFalsy t.id || jsFalsy t.src) = true := by
      rcases h with h | h <;> simp [h]
    simp [addTokenHandler, hb]
  · intro h
    by_cases hb : (jsFalsy t.id || jsFalsy t.src) = true
    · simp [addTokenHandler, hb]
    · simp only [Bool.not_eq_true] at hb
      simp [addTokenHandler, hb, h]
  · intro hid hsrc hno
    have hb : (jsFalsy t.id || jsFalsy t.src) = false := by simp [hid, hsrc]
    have hex : ¬ ∃ u ∈ s.tokens, u.id = t.id := by
      rintro ⟨u, hu, he⟩; exact hno u hu he
    refine ⟨?_, ?_⟩ <;> simp [addTokenHandler, hb, hex]

/-- C5 witness: adding `{id: t1, src: a.png}` to an empty store appends it and
emits persist-then-broadcast; adding another token with the same id to the
resulting store is a complete no-op. -/
theorem addToken_spec_witness :
    (addTokenHandler (some ⟨some "t1", some "a.png", 0⟩)
        ⟨[], [], ⟨none, []⟩, []⟩).1.tokens = [] ++ [⟨some "t1", some "a.png", 0⟩] ∧
    (addTokenHandler (some ⟨some "t1", some "a.png", 0⟩)
        ⟨[], [], ⟨none, []⟩, []⟩).2 =
      [.persist ([] ++ [⟨some "t1", some "a.png", 0⟩]),
        .emitAll (.addToken ⟨some "t1", some "a.png", 0⟩)] ∧
    addTokenHandler (some ⟨some "t1", some "b.png", 1⟩)
        ⟨[⟨some "t1", some "a.png", 0⟩], [], ⟨none, []⟩, []⟩ =
      (⟨[⟨some "t1", some "a.png", 0⟩], [], ⟨none, []⟩, []⟩, []) := by
  have h1 := (addToken_spec ⟨some "t1", some "a.png", 0⟩
      ⟨[], [], ⟨none, []⟩, []⟩).2.2 (by decide) (by decide) (by decide)
  have h2 := (addToken_spec ⟨some "t1", some "b.png", 1⟩
      ⟨[⟨some "t1", some "a.png", 0⟩], [], ⟨none, []⟩, []⟩).2.1
      ⟨⟨some "t1", some "a.png", 0⟩, by decide, rfl⟩
  exact ⟨h1.1, h1.2, h2⟩

/-- C6: in every token mutation handler (`addToken`, `updateToken`, `reorder`,
`deleteToken`), any broadcast of a mutation message in the emitted action
sequence is preceded by the synchronous persist of the full resulting token
store. -/
theorem durability_precedes_visibility :
    (∀ payload s pre m suf,
        (addTokenHandler payload s).2 = pre ++ Action.emitAll m :: suf →
        isMutationMsg m = true →
        Action.persist (addTokenHandler payload s).1.tokens ∈ pre) ∧
    (∀ t s pre m suf,
        (updateTokenHandler t s).2 = pre ++ Action.emitAll m :: suf →
        isMutationMsg m = true →
        Action.persist (updateTokenHandler t s).1.tokens ∈ pre) ∧
    (∀ payload s pre m suf,
        (reorderHandler payload s).2 = pre ++ Action.emitAll m :: suf →
        isMutationMsg m = true →
        Action.persist (reorderHandler payload s).1.tokens ∈ pre) ∧
    (∀ i s pre m suf,
        (deleteTokenHandler i s).2 = pre ++ Action.emitAll m :: suf →
        isMutationMsg m = true →
        Action.persist (deleteTokenHandler i s).1.tokens ∈ pre) := by
  refine ⟨?_, ?_, ?_, ?_⟩
  · intro payload s pre m suf h _
    rcases addTokenHandler_cases payload s with hc | ⟨t, -, -, -, -, hc⟩
    · rw [hc] at h
      simp at h
    · rw [hc] at h ⊢
      exact persist_mem_of_eq_append h
  · intro t s pre m suf h _
    exact persist_mem_of_eq_append h
  · intro payload s pre m suf h _
    exact persist_mem_of_eq_append h
  · intro i s pre m suf h _
    exact persist_mem_of_eq_append h

/-- C6 witness: the applied `addToken` of `{id: t1, src: a.png}` on an empty
store has action trace `[persist, broadcast]`, and the theorem places the
persist of the resulting store before the broadcast. -/
theorem durability_precedes_visibility_witness :
    Action.persist [(⟨some "t1", some "a.png", 0⟩ : Token)] ∈
      [Action.persist [(⟨some "t1", some "a.png", 0⟩ : Token)]] :=
  durability_precedes_visibility.1 (some ⟨some "t1", some "a.png", 0⟩)
    ⟨[], [], ⟨none, []⟩, []⟩ [Action.persist [⟨some "t1", some "a.png", 0⟩]]
    (Msg.addToken ⟨some "t1", some "a.png", 0⟩) [] (by decide) (by decide)

/-- C7: `updateToken` on an id matching no stored token leaves the store
unchanged yet still persists and broadcasts (applied=true); on a store with
unique ids it replaces exactly the matching entry in place, leaving all other
entries and their order unchanged. -/
theorem updateToken_spec (t : Token) (s : HubState) :
    ((∀ u ∈ s.tokens, u.id ≠ t.id) →
        (updateTokenHandler t s).1.tokens = s.tokens) ∧
    ((updateTokenHandler t s).2 =
        [.persist (updateTokenHandler t s).1.tokens, .emitAll (.updateToken t)]) ∧
    ((s.tokens.map Token.id).Nodup →
        ∀ l1 u l2, s.tokens = l1 ++ u :: l2 → u.id = t.id →
          (updateTokenHandler t s).1.tokens = l1 ++ t :: l2) := by
  refine ⟨?_, rfl, ?_⟩
  · intro h
    exact map_update_of_no_match t s.tokens h
  · intro hnd l1 u l2 hsplit hid
    have hmid : (u.id :: (l1.map Token.id ++ l2.map Token.id)).Nodup := by
      rw [← List.nodup_middle]
      simpa [hsplit, List.map_append] using hnd
    have hnotin := (List.nodup_cons.mp hmid).1
    rw [hid] at hnotin
    show (s.tokens.map fun v => if v.id = t.id then t else v) = l1 ++ t :: l2
    rw [hsplit, List.map_append, List.map_cons, if_pos hid,
      map_update_of_no_match t l1 ?_, map_update_of_no_match t l2 ?_]
    · intro v hv he
      exact hnotin (List.mem_append.mpr (Or.inr (he ▸ List.mem_map_of_mem Token.id hv)))
    · intro v hv he
      exact hnotin (List.mem_append.mpr (Or.inl (he ▸ List.mem_map_of_mem Token.id hv)))

/-- C7 witness: updating id `t9` on a store holding only `t1` changes nothing
but still persists and broadcasts; updating id `t1` with new attributes
replaces exactly that entry. -/
theorem updateToken_spec_witness :
    (updateTokenHandler ⟨some "t9", some "x.png", 5⟩
        ⟨[⟨some "t1", some "a.png", 0⟩], [], ⟨none, []⟩, []⟩).1.tokens =
      [⟨some "t1", some "a.png", 0⟩] ∧
    (updateTokenHandler ⟨some "t9", some "x.png", 5⟩
        ⟨[⟨some "t1", some "a.png", 0⟩], [], ⟨none, []⟩, []⟩).2 =
      [.persist [⟨some "t1", some "a.png", 0⟩],
        .emitAll (.updateToken ⟨some "t9", some "x.png", 5⟩)] ∧
    (updateTokenHandler ⟨some "t1", some "a.png", 7⟩
        ⟨[⟨some "t0", some "z.png", 3⟩, ⟨some "t1", some "a.png", 0⟩], [],
          ⟨none, []⟩, []⟩).1.tokens =
      [⟨some "t0", some "z.png", 3⟩] ++ ⟨some "t1", some "a.png", 7⟩ :: [] := by
  have h1 := updateToken_spec ⟨some "t9", some "x.png", 5⟩
      ⟨[⟨some "t1", some "a.png", 0⟩], [], ⟨none, []⟩, []⟩
  have h2 := (updateToken_spec ⟨some "t1", some "a.png", 7⟩
      ⟨[⟨some "t0", some "z.png", 3⟩, ⟨some "t1", some "a.png", 0⟩], [],
        ⟨none, []⟩, []⟩).2.2 (by decide)
      [⟨some "t0", some "z.png", 3⟩] ⟨some "t1", some "a.png", 0⟩ [] rfl rfl
  refine ⟨h1.1 (by decide), ?_, h2⟩
  have hb := h1.2.1
  rw [h1.1 (by decide)] at hb
  exact hb

/-- C8 counterexample: `reorder` applies an array containing a token with no
`id` and no `src`: the store is replaced (not left unchanged) although the
input is not a valid sequence of tokens, the resulting store violates the
id/src-presence-and-uniqueness invariant, and the mutation is broadcast. -/
theorem reorder_validity_counterexample :
    ¬ specValidTokenSeq [⟨none, none, 0⟩] ∧
    (reorderHandler (.arr [⟨none, none, 0⟩]) ⟨[], [], ⟨none, []⟩, []⟩).1.tokens ≠ [] ∧
    (reorderHandler (.arr [⟨none, none, 0⟩]) ⟨[], [], ⟨none, []⟩, []⟩).1.tokens =
      [⟨none, none, 0⟩] ∧
    ¬ storeInvariant
        (reorderHandler (.arr [⟨none, none, 0⟩]) ⟨[], [], ⟨none, []⟩, []⟩).1.tokens ∧
    Action.emitAll (.reorderMsg [⟨none, none, 0⟩]) ∈
      (reorderHandler (.arr [⟨none, none, 0⟩]) ⟨[], [], ⟨none, []⟩, []⟩).2 := by
  decide

/-- C8 (amended): `reorder` leaves the store unchanged only when the payload
is not an array; any array is applied wholesale with no element validation;
the id/src-presence and id-uniqueness invariant is preserved by `addToken`
and `deleteToken` (but not by `reorder`, per the counterexample). -/
theorem reorder_and_invariants_amended (s : HubState) :
    ((reorderHandler .notArray s).1.tokens = s.tokens) ∧
    (∀ ts, (reorderHandler (.arr ts) s).1.tokens = ts) ∧
    (storeInvariant s.tokens →
        (∀ payload, storeInvariant (addTokenHandler payload s).1.tokens) ∧
        (∀ i, storeInvariant (deleteTokenHandler i s).1.tokens)) := by
  refine ⟨rfl, fun ts => rfl, ?_⟩
  intro hv
  constructor
  · intro payload
    rcases addTokenHandler_cases payload s with hc | ⟨t, -, hid, hsrc, hno, hc⟩
    · rw [hc]; exact hv
    · rw [hc]
      show storeInvariant (s.tokens ++ [t])
      have hnotin : t.id ∉ s.tokens.map Token.id := by
        intro hmem
        obtain ⟨u, hu, he⟩ := List.mem_map.mp hmem
        exact hno u hu he
      refine ⟨?_, ?_⟩
      · intro x hx
        rcases List.mem_append.mp hx with hx | hx
        · exact hv.1 x hx
        · rw [List.mem_singleton.mp hx]; exact ⟨hid, hsrc⟩
      · rw [List.map_append]
        simp [List.nodup_append, hv.2, hnotin]
  · intro i
    refine ⟨?_, ?_⟩
    · intro x hx
      exact hv.1 x (List.mem_of_mem_filter hx)
    · have hsub : ((s.tokens.filter fun u => u.id ≠ i).map Token.id).Sublist
          (s.tokens.map Token.id) :=
        (List.filter_sublist s.tokens).map Token.id
      exact hv.2.sublist hsub

/-- C8 amended-claim witness: on a store holding the valid token `t1`,
deleting id `t1` and adding a fresh valid token `t2` both keep the store
invariant, while a non-array reorder payload leaves the store unchanged. -/
theorem reorder_and_invariants_amended_witness :
    (reorderHandler .notArray
        ⟨[⟨some "t1", some "a.png", 0⟩], [], ⟨none, []⟩, []⟩).1.tokens =
      [⟨some "t1", some "a.png", 0⟩] ∧
    storeInvariant (addTokenHandler (some ⟨some "t2", some "b.png", 1⟩)
        ⟨[⟨some "t1", some "a.png", 0⟩], [], ⟨none, []⟩, []⟩).1.tokens ∧
    storeInvariant (deleteTokenHandler (some "t1")
        ⟨[⟨some "t1", some "a.png", 0⟩], [], ⟨none, []⟩, []⟩).1.tokens := by
  have h := reorder_and_invariants_amended
      ⟨[⟨some "t1", some "a.png", 0⟩], [], ⟨none, []⟩, []⟩
  have hinv := h.2.2 (by decide)
  exact ⟨h.1, hinv.1 (some ⟨some "t2", some "b.png", 1⟩), hinv.2 (some "t1")⟩

/-- C9: a `voice-signal` with a live target is delivered to exactly that
target, unmodified and tagged with the sender's connection id; a missing or
non-live target means no state change and no delivery. -/
theorem voiceSignal_spec (sender : String) (target : Option String) (d : Nat)
    (s : HubState) :
    (target = none → voiceSignalHandler sender target d s = (s, [])) ∧
    (∀ tg, target = some tg → tg = "" ∨ tg ∉ s.connections →
        voiceSignalHandler sender target d s = (s, [])) ∧
    (∀ tg, target = some tg → tg ≠ "" → tg ∈ s.connections →
        voiceSignalHandler sender target d s =
          (s, [.emitTo tg (.voiceSignal sender d)])) := by
  refine ⟨?_, ?_, ?_⟩
  · rintro rfl; rfl
  · rintro tg rfl h
    have hn : ¬ (tg ≠ "" ∧ tg ∈ s.connections) := by
      rcases h with h | h
      · rintro ⟨h1, -⟩; exact h1 h
      · rintro ⟨-, h2⟩; exact h h2
    simp [voiceSignalHandler, hn]
  · rintro tg rfl h1 h2
    simp [voiceSignalHandler, h1, h2]

/-- C9 witness: a signal from `P1` to live target `P2` is delivered to `P2`
only, tagged `from = P1`; the same payload sent when `P2` is not live is
dropped with no state change. -/
theorem voiceSignal_spec_witness :
    voiceSignalHandler "P1" (some "P2") 42 ⟨[], [], ⟨none, []⟩, ["P1", "P2"]⟩ =
      (⟨[], [], ⟨none, []⟩, ["P1", "P2"]⟩, [.emitTo "P2" (.voiceSignal "P1" 42)]) ∧
    voiceSignalHandler "P1" (some "P2") 42 ⟨[], [], ⟨none, []⟩, ["P1"]⟩ =
      (⟨[], [], ⟨none, []⟩, ["P1"]⟩, []) := by
  refine ⟨(voiceSignal_spec "P1" (some "P2") 42
      ⟨[], [], ⟨none, []⟩, ["P1", "P2"]⟩).2.2 "P2" rfl (by decide) (by decide), ?_⟩
  exact (voiceSignal_spec "P1" (some "P2") 42
      ⟨[], [], ⟨none, []⟩, ["P1"]⟩).2.1 "P2" rfl (Or.inr (by decide))

/-- C10 (implicit): the `voice-speaking` handler is sender-independent — its
result is a function of the payload and state alone, identical for any two
senders — and whenever the payload id names a rostered participant, that
participant's speaking flag is set and the delta broadcast, no matter which
connection sent the event. -/
theorem voiceSpeaking_sender_independent (s1 s2 : String) (id : Option String)
    (sp : Bool) (st : HubState) :
    voiceSpeakingHandler s1 id sp st = voiceSpeakingHandler s2 id sp st ∧
    (∀ pid, id = some pid → pid ≠ "" →
        ∀ q, st.participants.lookup pid = some q →
          (voiceSpeakingHandler s1 id sp st).1.participants.lookup pid =
              some { q with speaking := sp } ∧
          (voiceSpeakingHandler s1 id sp st).2 =
            [.emitAll (.voiceSpeaking pid sp)]) := by
  refine ⟨rfl, ?_⟩
  rintro pid rfl hne q hq
  have hsome : (st.participants.lookup pid).isSome := by rw [hq]; rfl
  rw [voiceSpeakingHandler_member s1 pid sp st hne hsome]
  refine ⟨?_, rfl⟩
  show (st.participants.map fun kv =>
      if kv.1 = pid then (kv.1, { kv.2 with speaking := sp }) else kv).lookup pid = _
  rw [lookup_map_speaking, hq]
  rfl

/-- C10 witness: with `Q` rostered and not speaking, a `voice-speaking`
payload `{id: Q, speaking: true}` sent by `P1` and by `P2` produces the same
state and broadcast, and sets `Q`'s flag. -/
theorem voiceSpeaking_sender_independent_witness :
    voiceSpeakingHandler "P1" (some "Q") true
        ⟨[], [("Q", ⟨"Q", "nick", false⟩)], ⟨none, []⟩, []⟩ =
      voiceSpeakingHandler "P2" (some "Q") true
        ⟨[], [("Q", ⟨"Q", "nick", false⟩)], ⟨none, []⟩, []⟩ ∧
    (voiceSpeakingHandler "P1" (some "Q") true
        ⟨[], [("Q", ⟨"Q", "nick", false⟩)], ⟨none, []⟩, []⟩).1.participants.lookup "Q" =
      some ⟨"Q", "nick", true⟩ ∧
    (voiceSpeakingHandler "P1" (some "Q") true
        ⟨[], [("Q", ⟨"Q", "nick", false⟩)], ⟨none, []⟩, []⟩).2 =
      [.emitAll (.voiceSpeaking "Q" true)] := by
  have h := voiceSpeaking_sender_independent "P1" "P2" (some "Q") true
      ⟨[], [("Q", ⟨"Q", "nick", false⟩)], ⟨none, []⟩, []⟩
  have h2 := h.2 "Q" rfl (by decide) ⟨"Q", "nick", false⟩ (by decide)
  exact ⟨h.1, h2.1, h2.2⟩

end Reqviem
